import Mathlib

/-!
# Verification of the `InvertedIndex` character trie (`src/inverted_index.rs`)

Shallow embedding of the inverted-index trie of `elasticlunr-rs`:

* `TermFrequency` wraps the stored frequency value.  The Rust field is an
  `f64` that is only ever stored and returned verbatim (never computed
  with), so it is modelled exactly by `ℚ`.
* Rust's `HashMap` is modelled by an association list with unique keys;
  `insertA` is insert-or-overwrite (`HashMap::insert` / `entry().or_insert`),
  `eraseA` is `HashMap::remove`, `lookupA` is `HashMap::get`.
* The `children` keys in Rust are the strings `char.to_string()`, i.e. always
  exactly one Unicode codepoint; they are modelled by `Char` (the serializer
  turns them back into one-codepoint strings).
* Tokens are walked codepoint by codepoint (`token.char_indices()`), so a
  token is modelled as its list of codepoints `List Char`.  A byte-accurate
  model of the `&token[index..]` slicing is given further below
  (`add_token_b` / `remove_token_b`) and proved to refine the codepoint model.
* `doc_freq` is an `i64` that only moves by ±1 per distinct-document
  insert/remove; it is modelled by `ℤ`.
-/

set_option autoImplicit false

namespace ElasticLunr

/-! ## Association lists standing in for `HashMap` -/

variable {α : Type} {β : Type} {γ : Type}

/-- `HashMap::get`: value stored at key `k`, if any. -/
def lookupA [DecidableEq α] : List (α × β) → α → Option β
  | [], _ => none
  | (k', v) :: rest, k => if k' = k then some v else lookupA rest k

/-- `HashMap::contains_key`. -/
def containsA [DecidableEq α] (l : List (α × β)) (k : α) : Bool :=
  (lookupA l k).isSome

/-- `HashMap::insert` (also `entry(k).or_insert(..)` followed by in-place
update): overwrite the entry for `k` if present, else add one. -/
def insertA [DecidableEq α] : List (α × β) → α → β → List (α × β)
  | [], k, v => [(k, v)]
  | (k', v') :: rest, k, v =>
    if k' = k then (k, v) :: rest else (k', v') :: insertA rest k v

/-- `HashMap::remove`: drop the entry for `k` (keys are unique in a
`HashMap`, so dropping the first occurrence is exact). -/
def eraseA [DecidableEq α] : List (α × β) → α → List (α × β)
  | [], _ => []
  | (k', v') :: rest, k => if k' = k then rest else (k', v') :: eraseA rest k

/-- The keys of an association list. -/
def keysA (l : List (α × β)) : List α :=
  l.map Prod.fst

/-! ## The data model (`struct TermFrequency`, `struct IndexItem`) -/

/-- `struct TermFrequency { term_freq: f64 }`.  The frequency is stored and
returned verbatim and never computed with, so `f64` is modelled by `ℚ`. -/
structure TermFrequency where
  term_freq : Rat
deriving DecidableEq

/-- `struct IndexItem { docs: HashMap<String, TermFrequency>, doc_freq: i64,
children: HashMap<String, IndexItem> }`.  The `children` keys are always
one-codepoint strings (`char.to_string()`), modelled by `Char`. -/
inductive IndexItem : Type where
  | mk (docs : List (String × TermFrequency)) (doc_freq : Int)
       (children : List (Char × IndexItem))

/-- Field accessor for `IndexItem.docs`. -/
def IndexItem.docs : IndexItem → List (String × TermFrequency)
  | .mk d _ _ => d

/-- Field accessor for `IndexItem.doc_freq`. -/
def IndexItem.doc_freq : IndexItem → Int
  | .mk _ f _ => f

/-- Field accessor for `IndexItem.children`. -/
def IndexItem.children : IndexItem → List (Char × IndexItem)
  | .mk _ _ c => c

/-- `IndexItem::new()`. -/
def IndexItem.new : IndexItem :=
  .mk [] 0 []

/-! ## Operations on `IndexItem`

Tokens are walked one Unicode codepoint at a time: the Rust code takes the
first char from `token.char_indices()` and recurses on the byte slice
`&token[index..]`, which for valid UTF-8 is exactly the remaining
codepoints.  A token is therefore a `List Char`; the byte-accurate model and
its equivalence proof appear in the `Utf8` section below. -/

/-- `IndexItem::add_token` (src lines 26–45).  First codepoint selects (or
lazily creates) a child.  If it was the last codepoint, update the child's
postings: bump `doc_freq` only when `doc_ref` is a new key, then
insert-or-overwrite the term frequency.  Otherwise recurse with the rest of
the token.  An empty token is a no-op. -/
def IndexItem.add_token (self : IndexItem) (doc_ref : String) (token : List Char)
    (term_freq : Rat) : IndexItem :=
  match token with
  | [] => self
  | c :: rest =>
    let child := (lookupA self.children c).getD IndexItem.new
    match rest with
    | [] =>
      .mk self.docs self.doc_freq (insertA self.children c
        (.mk (insertA child.docs doc_ref ⟨term_freq⟩)
          (if containsA child.docs doc_ref then child.doc_freq else child.doc_freq + 1)
          child.children))
    | _ :: _ =>
      .mk self.docs self.doc_freq
        (insertA self.children c (child.add_token doc_ref rest term_freq))

/-- `IndexItem::get_node` (src lines 48–59): follow the chain of child edges
spelled by the token; `none` when an edge is missing. -/
def IndexItem.get_node (self : IndexItem) (token : List Char) : Option IndexItem :=
  match token with
  | [] => some self
  | c :: rest =>
    match lookupA self.children c with
    | none => none
    | some child => child.get_node rest

/-- `IndexItem::remove_token` (src lines 62–78).  Follow the path without
creating nodes; missing edge means no-op.  At the terminal node, remove the
posting and decrement `doc_freq` only if `doc_ref` was present.  Nodes are
never deleted. -/
def IndexItem.remove_token (self : IndexItem) (doc_ref : String)
    (token : List Char) : IndexItem :=
  match token with
  | [] => self
  | c :: rest =>
    match lookupA self.children c with
    | none => self
    | some child =>
      match rest with
      | [] =>
        .mk self.docs self.doc_freq (insertA self.children c
          (if containsA child.docs doc_ref then
            .mk (eraseA child.docs doc_ref) (child.doc_freq - 1) child.children
          else child))
      | _ :: _ =>
        .mk self.docs self.doc_freq
          (insertA self.children c (child.remove_token doc_ref rest))

/-! ## Serialization (`impl Serialize for IndexItem`, src lines 82–94)

`serde_json` values produced by the manual `Serialize` impl: a map with the
entry `"df"`, the entry `"docs"` (via the derived impl on
`HashMap<String, TermFrequency>` and `TermFrequency`'s renamed field
`"tf"`), and then the children inlined, each keyed by its one-codepoint
string. -/

/-- The JSON-like values emitted by the serializer. -/
inductive Json where
  | jint (n : Int)
  | jnum (q : Rat)
  | obj (entries : List (String × Json))

mutual

/-- `impl Serialize for IndexItem` (src lines 82–94): `"df"`, `"docs"`, then
one entry per child, inlined as siblings. -/
def IndexItem.serialize : IndexItem → Json
  | .mk docs df children =>
    Json.obj (("df", Json.jint df) ::
      ("docs", Json.obj (docs.map (fun p => (p.1, Json.obj [("tf", Json.jnum p.2.term_freq)])))) ::
      serializeChildren children)

/-- The `for (key, value) in &self.children { state.serialize_entry(key, &value)? }`
loop: one recursively-serialized entry per child, keyed by the child's
stored one-codepoint string. -/
def serializeChildren : List (Char × IndexItem) → List (String × Json)
  | [] => []
  | (c, child) :: rest => (c.toString, child.serialize) :: serializeChildren rest

end

/-! ## The public wrapper (`pub struct InvertedIndex`, src lines 97–142) -/

/-- `pub struct InvertedIndex { root: IndexItem }`. -/
structure InvertedIndex where
  root : IndexItem

/-- `InvertedIndex::new()`. -/
def InvertedIndex.new : InvertedIndex :=
  ⟨IndexItem.new⟩

/-- `InvertedIndex::add_token`. -/
def InvertedIndex.add_token (self : InvertedIndex) (doc_ref : String)
    (token : List Char) (term_freq : Rat) : InvertedIndex :=
  ⟨self.root.add_token doc_ref token term_freq⟩

/-- `InvertedIndex::has_token`. -/
def InvertedIndex.has_token (self : InvertedIndex) (token : List Char) : Bool :=
  (self.root.get_node token).isSome

/-- `InvertedIndex::remove_token`. -/
def InvertedIndex.remove_token (self : InvertedIndex) (doc_ref : String)
    (token : List Char) : InvertedIndex :=
  ⟨self.root.remove_token doc_ref token⟩

/-- `InvertedIndex::get_docs`: `None` when the path is absent, otherwise the
node's postings with the `TermFrequency` wrapper projected away. -/
def InvertedIndex.get_docs (self : InvertedIndex) (token : List Char) :
    Option (List (String × Rat)) :=
  (self.root.get_node token).map
    (fun node => node.docs.map (fun p => (p.1, p.2.term_freq)))

/-- `InvertedIndex::get_term_frequency`: `0.` when the node or the posting is
absent. -/
def InvertedIndex.get_term_frequency (self : InvertedIndex) (doc_ref : String)
    (token : List Char) : Rat :=
  match self.root.get_node token with
  | none => 0
  | some node => ((lookupA node.docs doc_ref).map TermFrequency.term_freq).getD 0

/-- `InvertedIndex::get_doc_frequency`: `0` when the node is absent. -/
def InvertedIndex.get_doc_frequency (self : InvertedIndex) (token : List Char) : Int :=
  match self.root.get_node token with
  | none => 0
  | some node => node.doc_freq

/-- `#[derive(Serialize)]` on `InvertedIndex` (src line 97): a struct with the
single field `root` serializes as the one-entry map `{"root": …}`. -/
def InvertedIndex.serialize (self : InvertedIndex) : Json :=
  Json.obj [("root", self.root.serialize)]

/-! ## Operation sequences, for reachable-state invariants -/

/-- One public mutating call. -/
inductive Op where
  | addTok (doc_ref : String) (token : List Char) (term_freq : Rat)
  | removeTok (doc_ref : String) (token : List Char)

/-- Apply one public mutating call. -/
def InvertedIndex.applyOp (self : InvertedIndex) : Op → InvertedIndex
  | .addTok d t f => self.add_token d t f
  | .removeTok d t => self.remove_token d t

/-- Apply a sequence of public mutating calls, oldest first. -/
def InvertedIndex.applyOps (self : InvertedIndex) (ops : List Op) : InvertedIndex :=
  ops.foldl InvertedIndex.applyOp self

/-- Apply a sequence of `add_token` calls, oldest first. -/
def InvertedIndex.applyAdds (self : InvertedIndex)
    (adds : List (String × List Char × Rat)) : InvertedIndex :=
  adds.foldl (fun idx p => idx.add_token p.1 p.2.1 p.2.2) self

/-! ## Named views of the terminal-node updates -/

/-- The terminal-node update performed by `add_token` at the last codepoint. -/
def addTerm (n : IndexItem) (doc_ref : String) (term_freq : Rat) : IndexItem :=
  .mk (insertA n.docs doc_ref ⟨term_freq⟩)
    (if containsA n.docs doc_ref then n.doc_freq else n.doc_freq + 1)
    n.children

/-- The terminal-node update performed by `remove_token` at the last codepoint. -/
def removeTerm (n : IndexItem) (doc_ref : String) : IndexItem :=
  if containsA n.docs doc_ref then
    .mk (eraseA n.docs doc_ref) (n.doc_freq - 1) n.children
  else n

/-! ## The `doc_freq = |docs|` invariant -/

mutual

/-- Well-formedness of a node and all its descendants: association-list keys
are unique (as in a `HashMap`) and `doc_freq` equals the number of postings
keys. -/
def IndexItem.inv : IndexItem → Prop
  | .mk docs df children =>
    (keysA docs).Nodup ∧ df = (docs.length : Int) ∧
      (keysA children).Nodup ∧ invChildren children

/-- `IndexItem.inv` holds of every child in the list. -/
def invChildren : List (Char × IndexItem) → Prop
  | [] => True
  | (_, child) :: rest => child.inv ∧ invChildren rest

end

/-! ## Byte-level model of the walk (C10)

`add_token` and `remove_token` take the token's first codepoint from
`token.char_indices()` and recurse on the byte slice `&token[index..]`,
where `index` is the byte offset of the second codepoint (first offset plus
`char::len_utf8`).  Rust string slicing panics when the index is not a
character boundary.  The functions below re-run the walk over the raw UTF-8
bytes, modelling each would-be panic (slicing off a boundary, or decoding a
malformed stream, which `&str`'s validity excludes) as `none`; the
refinement theorem for C10 shows that on every encoded token the byte walk
returns `some` of what the codepoint-level walk computes. -/

/-- `char::len_utf8`, written `1 + extra` so that positivity is syntactic for
the termination argument. -/
def utf8Len (c : Char) : Nat :=
  1 + (if c.toNat < 0x80 then 0 else if c.toNat < 0x800 then 1
       else if c.toNat < 0x10000 then 2 else 3)

/-- The UTF-8 encoding of one scalar value (`char::encode_utf8`). -/
def utf8EncodeChar (c : Char) : List Nat :=
  let v := c.toNat
  if v < 0x80 then [v]
  else if v < 0x800 then [0xC0 + v / 0x40, 0x80 + v % 0x40]
  else if v < 0x10000 then
    [0xE0 + v / 0x1000, 0x80 + v / 0x40 % 0x40, 0x80 + v % 0x40]
  else
    [0xF0 + v / 0x40000, 0x80 + v / 0x1000 % 0x40, 0x80 + v / 0x40 % 0x40,
      0x80 + v % 0x40]

/-- The UTF-8 bytes of a whole token (what a `&str` is). -/
def utf8Encode : List Char → List Nat
  | [] => []
  | c :: rest => utf8EncodeChar c ++ utf8Encode rest

/-- Decoding tail of a two-byte sequence. -/
def utf8Decode2 (b : Nat) : List Nat → Option Char
  | b2 :: _ =>
    if 0x80 ≤ b2 ∧ b2 < 0xC0 then
      some (Char.ofNat ((b - 0xC0) * 0x40 + (b2 - 0x80)))
    else none
  | [] => none

/-- Decoding tail of a three-byte sequence. -/
def utf8Decode3 (b : Nat) : List Nat → Option Char
  | b2 :: b3 :: _ =>
    if (0x80 ≤ b2 ∧ b2 < 0xC0) ∧ (0x80 ≤ b3 ∧ b3 < 0xC0) then
      some (Char.ofNat ((b - 0xE0) * 0x1000 + (b2 - 0x80) * 0x40 + (b3 - 0x80)))
    else none
  | _ => none

/-- Decoding tail of a four-byte sequence. -/
def utf8Decode4 (b : Nat) : List Nat → Option Char
  | b2 :: b3 :: b4 :: _ =>
    if (0x80 ≤ b2 ∧ b2 < 0xC0) ∧ (0x80 ≤ b3 ∧ b3 < 0xC0) ∧ (0x80 ≤ b4 ∧ b4 < 0xC0) then
      some (Char.ofNat ((b - 0xF0) * 0x40000 + (b2 - 0x80) * 0x1000 +
        (b3 - 0x80) * 0x40 + (b4 - 0x80)))
    else none
  | _ => none

/-- The first Unicode scalar of a UTF-8 byte stream (the first element of
`token.char_indices()`); `none` on an empty or malformed stream. -/
def utf8DecodeFirst : List Nat → Option Char
  | [] => none
  | b :: rest =>
    if b < 0x80 then some (Char.ofNat b)
    else if b < 0xC0 then none
    else if b < 0xE0 then utf8Decode2 b rest
    else if b < 0xF0 then utf8Decode3 b rest
    else utf8Decode4 b rest

/-- `str::is_char_boundary`: true at 0 and at the total length, and otherwise
exactly when the byte at `i` is not a continuation byte. -/
def is_char_boundary (s : List Nat) (i : Nat) : Bool :=
  if i = 0 then true
  else
    match s[i]? with
    | none => i == s.length
    | some b => decide (b < 0x80) || decide (0xC0 ≤ b)

/-- `IndexItem::add_token` re-run over the raw UTF-8 bytes of the token,
with every would-be panic modelled as `none`: an out-of-boundary slice
(cannot happen, by `claim_C10_…`) or a malformed stream (cannot happen for a
`&str`). -/
def IndexItem.add_token_b (self : IndexItem) (doc_ref : String) (token : List Nat)
    (term_freq : Rat) : Option IndexItem :=
  match utf8DecodeFirst token with
  | none => if token.isEmpty then some self else none
  | some c =>
    let child := (lookupA self.children c).getD IndexItem.new
    if h : utf8Len c < token.length then
      if is_char_boundary token (utf8Len c) then
        match child.add_token_b doc_ref (token.drop (utf8Len c)) term_freq with
        | some child2 =>
          some (.mk self.docs self.doc_freq (insertA self.children c child2))
        | none => none
      else none
    else
      some (.mk self.docs self.doc_freq (insertA self.children c
        (.mk (insertA child.docs doc_ref ⟨term_freq⟩)
          (if containsA child.docs doc_ref then child.doc_freq else child.doc_freq + 1)
          child.children)))
termination_by token.length
decreasing_by
  simp only [List.length_drop, utf8Len] at h ⊢
  omega

/-- `IndexItem::remove_token` re-run over the raw UTF-8 bytes, with the same
panic modelling as `IndexItem.add_token_b`. -/
def IndexItem.remove_token_b (self : IndexItem) (doc_ref : String)
    (token : List Nat) : Option IndexItem :=
  match utf8DecodeFirst token with
  | none => if token.isEmpty then some self else none
  | some c =>
    match lookupA self.children c with
    | none => some self
    | some child =>
      if h : utf8Len c < token.length then
        if is_char_boundary token (utf8Len c) then
          match child.remove_token_b doc_ref (token.drop (utf8Len c)) with
          | some child2 =>
            some (.mk self.docs self.doc_freq (insertA self.children c child2))
          | none => none
        else none
      else
        some (.mk self.docs self.doc_freq (insertA self.children c
          (if containsA child.docs doc_ref then
            .mk (eraseA child.docs doc_ref) (child.doc_freq - 1) child.children
          else child)))
termination_by token.length
decreasing_by
  simp only [List.length_drop, utf8Len] at h ⊢
  omega

/-! ## Theorems -/

@[simp] theorem lookupA_nil [DecidableEq α] (k : α) :
    lookupA ([] : List (α × β)) k = none := rfl

@[simp] theorem lookupA_cons [DecidableEq α] (k' k : α) (v : β) (rest : List (α × β)) :
    lookupA ((k', v) :: rest) k = if k' = k then some v else lookupA rest k := rfl

@[simp] theorem lookupA_insertA_self [DecidableEq α] (l : List (α × β)) (k : α) (v : β) :
    lookupA (insertA l k v) k = some v := by
  induction l with
  | nil => simp [insertA]
  | cons p rest ih =>
    obtain ⟨k', v'⟩ := p
    by_cases h : k' = k <;> simp [insertA, h, ih]

theorem lookupA_insertA_ne [DecidableEq α] (l : List (α × β)) (k k' : α) (v : β)
    (h : k ≠ k') : lookupA (insertA l k v) k' = lookupA l k' := by
  induction l with
  | nil => simp [insertA, h]
  | cons p rest ih =>
    obtain ⟨k'', v''⟩ := p
    by_cases h2 : k'' = k
    · subst h2
      simp [insertA, h]
    · simp only [insertA, if_neg h2, lookupA_cons, ih]

theorem insertA_lookupA_eq [DecidableEq α] (l : List (α × β)) (k : α) (v : β)
    (h : lookupA l k = some v) : insertA l k v = l := by
  induction l with
  | nil => simp [lookupA] at h
  | cons p rest ih =>
    obtain ⟨k', v'⟩ := p
    by_cases h2 : k' = k
    · subst h2
      simp at h
      subst h
      simp [insertA]
    · simp only [lookupA_cons, if_neg h2] at h
      simp [insertA, h2, ih h]

theorem containsA_insertA_self [DecidableEq α] (l : List (α × β)) (k : α) (v : β) :
    containsA (insertA l k v) k = true := by
  simp [containsA]

theorem length_insertA [DecidableEq α] (l : List (α × β)) (k : α) (v : β) :
    (insertA l k v).length = if containsA l k then l.length else l.length + 1 := by
  induction l with
  | nil => simp [insertA, containsA]
  | cons p rest ih =>
    obtain ⟨k', v'⟩ := p
    by_cases h : k' = k
    · simp [insertA, containsA, h]
    · simp only [insertA, if_neg h, List.length_cons, ih, containsA, lookupA_cons]
      by_cases h2 : containsA rest k <;> simp_all [containsA]

theorem length_eraseA [DecidableEq α] (l : List (α × β)) (k : α)
    (h : containsA l k = true) : (eraseA l k).length + 1 = l.length := by
  induction l with
  | nil => simp [containsA] at h
  | cons p rest ih =>
    obtain ⟨k', v'⟩ := p
    by_cases h2 : k' = k
    · simp [eraseA, h2]
    · simp only [containsA, lookupA_cons, if_neg h2] at h
      simp [eraseA, h2, ih h]

theorem mem_keysA_insertA [DecidableEq α] (l : List (α × β)) (k a : α) (v : β) :
    a ∈ keysA (insertA l k v) ↔ a = k ∨ a ∈ keysA l := by
  induction l with
  | nil => simp [insertA, keysA]
  | cons p rest ih =>
    obtain ⟨k', v'⟩ := p
    by_cases h2 : k' = k
    · subst h2
      simp [insertA, keysA, List.mem_cons]
    · simp only [insertA, if_neg h2, keysA, List.map_cons, List.mem_cons] at ih ⊢
      rw [ih]
      tauto

theorem keysA_insertA [DecidableEq α] (l : List (α × β)) (k : α) (v : β)
    (h : (keysA l).Nodup) : (keysA (insertA l k v)).Nodup := by
  induction l with
  | nil => simp [insertA, keysA]
  | cons p rest ih =>
    obtain ⟨k', v'⟩ := p
    simp only [keysA, List.map_cons, List.nodup_cons] at h
    by_cases h2 : k' = k
    · subst h2
      simpa [insertA, keysA] using h
    · simp only [insertA, if_neg h2, keysA, List.map_cons, List.nodup_cons]
      refine ⟨?_, ih h.2⟩
      intro hmem
      rcases (mem_keysA_insertA rest k k' v).mp hmem with h3 | h3
      · exact h2 h3
      · exact h.1 h3

theorem mem_keysA_eraseA [DecidableEq α] (l : List (α × β)) (k a : α)
    (h : a ∈ keysA (eraseA l k)) : a ∈ keysA l := by
  induction l with
  | nil => simp [eraseA, keysA] at h
  | cons p rest ih =>
    obtain ⟨k', v'⟩ := p
    by_cases h2 : k' = k
    · simp only [eraseA, if_pos h2] at h
      simp only [keysA, List.map_cons, List.mem_cons]
      exact Or.inr h
    · simp only [eraseA, if_neg h2, keysA, List.map_cons, List.mem_cons] at h ⊢
      rcases h with h | h
      · exact Or.inl h
      · exact Or.inr (ih h)

theorem keysA_eraseA [DecidableEq α] (l : List (α × β)) (k : α)
    (h : (keysA l).Nodup) : (keysA (eraseA l k)).Nodup := by
  induction l with
  | nil => simp [eraseA, keysA]
  | cons p rest ih =>
    obtain ⟨k', v'⟩ := p
    simp only [keysA, List.map_cons, List.nodup_cons] at h
    by_cases h2 : k' = k
    · simpa [eraseA, h2, keysA] using h.2
    · simp only [eraseA, if_neg h2, keysA, List.map_cons, List.nodup_cons]
      exact ⟨fun hmem => h.1 (mem_keysA_eraseA rest k k' hmem), ih h.2⟩

theorem lookupA_eq_none_of_not_mem [DecidableEq α] (l : List (α × β)) (k : α)
    (h : k ∉ keysA l) : lookupA l k = none := by
  induction l with
  | nil => simp
  | cons p rest ih =>
    obtain ⟨k', v'⟩ := p
    simp only [keysA, List.map_cons, List.mem_cons] at h
    push_neg at h
    simp only [lookupA_cons, if_neg (Ne.symm h.1)]
    exact ih h.2

theorem lookupA_eraseA_self [DecidableEq α] (l : List (α × β)) (k : α)
    (h : (keysA l).Nodup) : lookupA (eraseA l k) k = none := by
  induction l with
  | nil => simp [eraseA]
  | cons p rest ih =>
    obtain ⟨k', v'⟩ := p
    simp only [keysA, List.map_cons, List.nodup_cons] at h
    by_cases h2 : k' = k
    · subst h2
      simp only [eraseA, if_pos rfl]
      exact lookupA_eq_none_of_not_mem rest k' h.1
    · simp only [eraseA, if_neg h2, lookupA_cons, if_neg h2]
      exact ih h.2

theorem lookupA_eraseA_ne [DecidableEq α] (l : List (α × β)) (k k' : α)
    (h : k ≠ k') : lookupA (eraseA l k) k' = lookupA l k' := by
  induction l with
  | nil => simp [eraseA]
  | cons p rest ih =>
    obtain ⟨k'', v''⟩ := p
    by_cases h2 : k'' = k
    · subst h2
      simp [eraseA, if_neg h, lookupA_cons, h]
    · simp only [eraseA, if_neg h2, lookupA_cons, ih]

theorem lookupA_map_snd [DecidableEq α] (l : List (α × β)) (f : β → γ) (k : α) :
    lookupA (l.map (fun p => (p.1, f p.2))) k = (lookupA l k).map f := by
  induction l with
  | nil => simp
  | cons p rest ih =>
    obtain ⟨k', v'⟩ := p
    by_cases h : k' = k <;> simp [h, ih]

@[simp] theorem IndexItem.docs_mk (d : List (String × TermFrequency)) (f : Int)
    (c : List (Char × IndexItem)) : (IndexItem.mk d f c).docs = d := rfl

@[simp] theorem IndexItem.doc_freq_mk (d : List (String × TermFrequency)) (f : Int)
    (c : List (Char × IndexItem)) : (IndexItem.mk d f c).doc_freq = f := rfl

@[simp] theorem IndexItem.children_mk (d : List (String × TermFrequency)) (f : Int)
    (c : List (Char × IndexItem)) : (IndexItem.mk d f c).children = c := rfl

@[simp] theorem IndexItem.get_node_nil (s : IndexItem) : s.get_node [] = some s := rfl

theorem IndexItem.get_node_cons (s : IndexItem) (c : Char) (p : List Char) :
    s.get_node (c :: p) =
      match lookupA s.children c with
      | none => none
      | some child => child.get_node p := rfl

@[simp] theorem IndexItem.get_node_new_cons (c : Char) (p : List Char) :
    IndexItem.new.get_node (c :: p) = none := rfl

@[simp] theorem IndexItem.add_token_nil (s : IndexItem) (d : String) (f : Rat) :
    s.add_token d [] f = s := rfl

theorem IndexItem.add_token_single (s : IndexItem) (d : String) (c : Char) (f : Rat) :
    s.add_token d [c] f =
      .mk s.docs s.doc_freq (insertA s.children c
        (addTerm ((lookupA s.children c).getD IndexItem.new) d f)) := rfl

theorem IndexItem.add_token_cons₂ (s : IndexItem) (d : String) (c c2 : Char)
    (rest : List Char) (f : Rat) :
    s.add_token d (c :: c2 :: rest) f =
      .mk s.docs s.doc_freq (insertA s.children c
        (((lookupA s.children c).getD IndexItem.new).add_token d (c2 :: rest) f)) := rfl

@[simp] theorem IndexItem.remove_token_nil (s : IndexItem) (d : String) :
    s.remove_token d [] = s := rfl

theorem IndexItem.remove_token_single (s : IndexItem) (d : String) (c : Char) :
    s.remove_token d [c] =
      match lookupA s.children c with
      | none => s
      | some child =>
        .mk s.docs s.doc_freq (insertA s.children c (removeTerm child d)) := by
  cases h : lookupA s.children c <;>
    simp only [remove_token, h, removeTerm]

theorem IndexItem.remove_token_cons₂ (s : IndexItem) (d : String) (c c2 : Char)
    (rest : List Char) :
    s.remove_token d (c :: c2 :: rest) =
      match lookupA s.children c with
      | none => s
      | some child =>
        .mk s.docs s.doc_freq (insertA s.children c (child.remove_token d (c2 :: rest))) := by
  cases h : lookupA s.children c <;> simp only [remove_token, h]

/-- After `add_token d t f` (with `t` non-empty), the node at path `t` exists
and is the terminal update of the previous node there (a fresh node when the
path did not exist before). -/
theorem get_node_add_token_self (d : String) (f : Rat) :
    ∀ (t : List Char) (s : IndexItem), t ≠ [] →
      (s.add_token d t f).get_node t =
        some (addTerm ((s.get_node t).getD IndexItem.new) d f) := by
  intro t
  induction t with
  | nil => intro s h; exact absurd rfl h
  | cons c rest ih =>
    intro s _
    cases rest with
    | nil =>
      rw [IndexItem.add_token_single]
      cases h2 : lookupA s.children c <;>
        simp [IndexItem.get_node_cons, h2]
    | cons c2 rest2 =>
      rw [IndexItem.add_token_cons₂]
      rw [IndexItem.get_node_cons]
      simp only [IndexItem.children_mk, lookupA_insertA_self]
      rw [ih _ (by simp)]
      cases h2 : lookupA s.children c <;>
        simp [IndexItem.get_node_cons, h2, IndexItem.new]

/-- After `remove_token d t` (with `t` non-empty), the node at path `t` is the
terminal removal-update of the previous node there, if it existed. -/
theorem get_node_remove_token_self (d : String) :
    ∀ (t : List Char) (s : IndexItem), t ≠ [] →
      (s.remove_token d t).get_node t = (s.get_node t).map (fun n => removeTerm n d) := by
  intro t
  induction t with
  | nil => intro s h; exact absurd rfl h
  | cons c rest ih =>
    intro s _
    cases rest with
    | nil =>
      rw [IndexItem.remove_token_single]
      cases h2 : lookupA s.children c with
      | none => simp [IndexItem.get_node_cons, h2]
      | some child => simp [IndexItem.get_node_cons, h2]
    | cons c2 rest2 =>
      rw [IndexItem.remove_token_cons₂]
      cases h2 : lookupA s.children c with
      | none => simp [IndexItem.get_node_cons, h2]
      | some child =>
        simp only [IndexItem.get_node_cons, IndexItem.children_mk, lookupA_insertA_self, h2]
        exact ih _ (by simp)

@[simp] theorem IndexItem.inv_mk (docs : List (String × TermFrequency)) (df : Int)
    (children : List (Char × IndexItem)) :
    (IndexItem.mk docs df children).inv ↔
      (keysA docs).Nodup ∧ df = (docs.length : Int) ∧
        (keysA children).Nodup ∧ invChildren children :=
  Iff.rfl

@[simp] theorem invChildren_nil : invChildren [] :=
  trivial

@[simp] theorem invChildren_cons (c : Char) (child : IndexItem)
    (rest : List (Char × IndexItem)) :
    invChildren ((c, child) :: rest) ↔ child.inv ∧ invChildren rest :=
  Iff.rfl

theorem IndexItem.inv_new : IndexItem.new.inv := by
  simp [IndexItem.new, keysA]

theorem invChildren_lookupA (l : List (Char × IndexItem)) (c : Char)
    (child : IndexItem) (hl : invChildren l) (h : lookupA l c = some child) :
    child.inv := by
  induction l with
  | nil => simp at h
  | cons p rest ih =>
    obtain ⟨c', child'⟩ := p
    rw [invChildren_cons] at hl
    by_cases h2 : c' = c
    · simp only [lookupA_cons, if_pos h2, Option.some.injEq] at h
      exact h ▸ hl.1
    · simp only [lookupA_cons, if_neg h2] at h
      exact ih hl.2 h

theorem invChildren_insertA (l : List (Char × IndexItem)) (c : Char)
    (child : IndexItem) (hl : invChildren l) (hc : child.inv) :
    invChildren (insertA l c child) := by
  induction l with
  | nil => simpa [insertA] using hc
  | cons p rest ih =>
    obtain ⟨c', child'⟩ := p
    rw [invChildren_cons] at hl
    by_cases h2 : c' = c
    · simp only [insertA, if_pos h2, invChildren_cons]
      exact ⟨hc, hl.2⟩
    · simp only [insertA, if_neg h2, invChildren_cons]
      exact ⟨hl.1, ih hl.2⟩

theorem inv_addTerm (n : IndexItem) (d : String) (f : Rat) (h : n.inv) :
    (addTerm n d f).inv := by
  obtain ⟨docs, df, children⟩ := n
  rw [IndexItem.inv_mk] at h
  simp only [addTerm, IndexItem.docs_mk, IndexItem.doc_freq_mk, IndexItem.children_mk,
    IndexItem.inv_mk]
  refine ⟨keysA_insertA _ _ _ h.1, ?_, h.2.2⟩
  rw [length_insertA]
  have hdf := h.2.1
  by_cases hc : containsA docs d <;> simp [hc] <;> omega

theorem inv_removeTerm (n : IndexItem) (d : String) (h : n.inv) :
    (removeTerm n d).inv := by
  obtain ⟨docs, df, children⟩ := n
  rw [IndexItem.inv_mk] at h
  rw [removeTerm]
  by_cases hc : containsA docs d
  · simp only [IndexItem.docs_mk, IndexItem.doc_freq_mk, IndexItem.children_mk, if_pos hc,
      IndexItem.inv_mk]
    refine ⟨keysA_eraseA _ _ h.1, ?_, h.2.2⟩
    have hlen := length_eraseA docs d hc
    have hdf := h.2.1
    omega
  · simpa [hc] using h

/-- `add_token` preserves the invariant. -/
theorem inv_add_token (d : String) (f : Rat) :
    ∀ (t : List Char) (s : IndexItem), s.inv → (s.add_token d t f).inv := by
  intro t
  induction t with
  | nil => intro s h; simpa using h
  | cons c rest ih =>
    intro s h
    obtain ⟨docs, df, children⟩ := s
    rw [IndexItem.inv_mk] at h
    have hchild : ((lookupA (IndexItem.mk docs df children).children c).getD IndexItem.new).inv := by
      cases h2 : lookupA (IndexItem.mk docs df children).children c with
      | none => simpa using IndexItem.inv_new
      | some child =>
        simpa using invChildren_lookupA children c child h.2.2.2 (by simpa using h2)
    cases rest with
    | nil =>
      rw [IndexItem.add_token_single]
      rw [IndexItem.inv_mk]
      refine ⟨h.1, h.2.1, ?_, ?_⟩
      · simpa using keysA_insertA children c _ h.2.2.1
      · simpa using invChildren_insertA children c _ h.2.2.2 (inv_addTerm _ d f hchild)
    | cons c2 rest2 =>
      rw [IndexItem.add_token_cons₂]
      rw [IndexItem.inv_mk]
      refine ⟨h.1, h.2.1, ?_, ?_⟩
      · simpa using keysA_insertA children c _ h.2.2.1
      · simpa using invChildren_insertA children c _ h.2.2.2 (ih _ hchild)

/-- `remove_token` preserves the invariant. -/
theorem inv_remove_token (d : String) :
    ∀ (t : List Char) (s : IndexItem), s.inv → (s.remove_token d t).inv := by
  intro t
  induction t with
  | nil => intro s h; simpa using h
  | cons c rest ih =>
    intro s h
    obtain ⟨docs, df, children⟩ := s
    rw [IndexItem.inv_mk] at h
    cases rest with
    | nil =>
      rw [IndexItem.remove_token_single]
      cases h2 : lookupA (IndexItem.mk docs df children).children c with
      | none => simpa using h
      | some child =>
        have hchild : child.inv :=
          invChildren_lookupA children c child h.2.2.2 (by simpa using h2)
        rw [IndexItem.inv_mk]
        refine ⟨h.1, h.2.1, ?_, ?_⟩
        · simpa using keysA_insertA children c _ h.2.2.1
        · simpa using invChildren_insertA children c _ h.2.2.2 (inv_removeTerm _ d hchild)
    | cons c2 rest2 =>
      rw [IndexItem.remove_token_cons₂]
      cases h2 : lookupA (IndexItem.mk docs df children).children c with
      | none => simpa using h
      | some child =>
        have hchild : child.inv :=
          invChildren_lookupA children c child h.2.2.2 (by simpa using h2)
        rw [IndexItem.inv_mk]
        refine ⟨h.1, h.2.1, ?_, ?_⟩
        · simpa using keysA_insertA children c _ h.2.2.1
        · simpa using invChildren_insertA children c _ h.2.2.2 (ih _ hchild)

/-- The invariant holds of every state reachable from an initial `applyOps`
start state whose root satisfies it. -/
theorem inv_applyOps (ops : List Op) :
    ∀ (s : InvertedIndex), s.root.inv → (s.applyOps ops).root.inv := by
  induction ops with
  | nil => intro s h; exact h
  | cons op rest ih =>
    intro s h
    cases op with
    | addTok d t f =>
      exact ih _ (inv_add_token d f t s.root h)
    | removeTok d t =>
      exact ih _ (inv_remove_token d t s.root h)

/-! ## The root node's own fields never change -/

theorem IndexItem.docs_add_token (s : IndexItem) (d : String) (t : List Char) (f : Rat) :
    (s.add_token d t f).docs = s.docs := by
  cases t with
  | nil => rfl
  | cons c rest => cases rest <;> rfl

theorem IndexItem.doc_freq_add_token (s : IndexItem) (d : String) (t : List Char) (f : Rat) :
    (s.add_token d t f).doc_freq = s.doc_freq := by
  cases t with
  | nil => rfl
  | cons c rest => cases rest <;> rfl

theorem IndexItem.docs_remove_token (s : IndexItem) (d : String) (t : List Char) :
    (s.remove_token d t).docs = s.docs := by
  cases t with
  | nil => rfl
  | cons c rest =>
    cases rest with
    | nil =>
      rw [IndexItem.remove_token_single]
      cases h : lookupA s.children c <;> simp
    | cons c2 rest2 =>
      rw [IndexItem.remove_token_cons₂]
      cases h : lookupA s.children c <;> simp

theorem IndexItem.doc_freq_remove_token (s : IndexItem) (d : String) (t : List Char) :
    (s.remove_token d t).doc_freq = s.doc_freq := by
  cases t with
  | nil => rfl
  | cons c rest =>
    cases rest with
    | nil =>
      rw [IndexItem.remove_token_single]
      cases h : lookupA s.children c <;> simp
    | cons c2 rest2 =>
      rw [IndexItem.remove_token_cons₂]
      cases h : lookupA s.children c <;> simp

@[simp] theorem InvertedIndex.applyOps_nil (s : InvertedIndex) :
    s.applyOps [] = s := rfl

@[simp] theorem InvertedIndex.applyOps_cons (s : InvertedIndex) (op : Op) (ops : List Op) :
    s.applyOps (op :: ops) = (s.applyOp op).applyOps ops := rfl

theorem root_fields_applyOps (ops : List Op) :
    ∀ (s : InvertedIndex),
      (s.applyOps ops).root.docs = s.root.docs ∧
        (s.applyOps ops).root.doc_freq = s.root.doc_freq := by
  induction ops with
  | nil => intro s; exact ⟨rfl, rfl⟩
  | cons op rest ih =>
    intro s
    rw [InvertedIndex.applyOps_cons]
    cases op with
    | addTok d t f =>
      refine ⟨?_, ?_⟩
      · rw [(ih (s.applyOp (.addTok d t f))).1]
        exact IndexItem.docs_add_token s.root d t f
      · rw [(ih (s.applyOp (.addTok d t f))).2]
        exact IndexItem.doc_freq_add_token s.root d t f
    | removeTok d t =>
      refine ⟨?_, ?_⟩
      · rw [(ih (s.applyOp (.removeTok d t))).1]
        exact IndexItem.docs_remove_token s.root d t
      · rw [(ih (s.applyOp (.removeTok d t))).2]
        exact IndexItem.doc_freq_remove_token s.root d t

/-! ## Which paths exist after an insertion -/

/-- A path exists after `add_token d t f` exactly when it existed before or is
a codepoint prefix of `t`. -/
theorem isSome_get_node_add_token (d : String) (f : Rat) :
    ∀ (t p : List Char) (s : IndexItem),
      ((s.add_token d t f).get_node p).isSome = true ↔
        ((s.get_node p).isSome = true ∨ ∃ q, p ++ q = t) := by
  intro t
  induction t with
  | nil =>
    intro p s
    cases p <;> simp
  | cons c rest ih =>
    intro p s
    cases p with
    | nil => simp
    | cons c' p' =>
      by_cases hcc : c' = c
      · subst hcc
        cases rest with
        | nil =>
          rw [IndexItem.add_token_single, IndexItem.get_node_cons]
          simp only [IndexItem.children_mk, lookupA_insertA_self]
          cases p' with
          | nil => simp
          | cons c2 p'' =>
            rw [IndexItem.get_node_cons]
            simp only [addTerm, IndexItem.children_mk]
            cases h2 : lookupA s.children c' with
            | none =>
              simp [IndexItem.get_node_cons, h2, IndexItem.new]
            | some ch =>
              rw [← IndexItem.get_node_cons]
              simp [IndexItem.get_node_cons, h2]
        | cons c2 rest2 =>
          rw [IndexItem.add_token_cons₂, IndexItem.get_node_cons]
          simp only [IndexItem.children_mk, lookupA_insertA_self]
          rw [ih p' _]
          cases h2 : lookupA s.children c' with
          | none =>
            cases p' with
            | nil => simp
            | cons c3 p'' =>
              simp [IndexItem.get_node_cons, h2, IndexItem.new]
          | some ch =>
            simp [IndexItem.get_node_cons, h2]
      · have hcc' : c ≠ c' := fun h => hcc h.symm
        cases rest with
        | nil =>
          rw [IndexItem.add_token_single, IndexItem.get_node_cons]
          simp only [IndexItem.children_mk, lookupA_insertA_ne _ _ _ _ hcc']
          rw [← IndexItem.get_node_cons]
          simp [hcc]
        | cons c2 rest2 =>
          rw [IndexItem.add_token_cons₂, IndexItem.get_node_cons]
          simp only [IndexItem.children_mk, lookupA_insertA_ne _ _ _ _ hcc']
          rw [← IndexItem.get_node_cons]
          simp [hcc]

/-- In a fresh index only the empty path (the root) exists. -/
theorem isSome_get_node_new (p : List Char) :
    (IndexItem.new.get_node p).isSome = true ↔ p = [] := by
  cases p <;> simp

@[simp] theorem InvertedIndex.applyAdds_nil (s : InvertedIndex) :
    s.applyAdds [] = s := rfl

@[simp] theorem InvertedIndex.applyAdds_cons (s : InvertedIndex)
    (x : String × List Char × Rat) (adds : List (String × List Char × Rat)) :
    s.applyAdds (x :: adds) = (s.add_token x.1 x.2.1 x.2.2).applyAdds adds := rfl

/-- Running `has_token` after a batch of insertions: the path is live iff it
was live before or is a codepoint prefix of one of the inserted tokens. -/
theorem has_token_applyAdds :
    ∀ (adds : List (String × List Char × Rat)) (s : InvertedIndex) (p : List Char),
      (s.applyAdds adds).has_token p = true ↔
        (s.has_token p = true ∨ ∃ x ∈ adds, ∃ q, p ++ q = x.2.1) := by
  intro adds
  induction adds with
  | nil => intro s p; simp
  | cons x rest ih =>
    intro s p
    rw [InvertedIndex.applyAdds_cons, ih]
    unfold InvertedIndex.has_token InvertedIndex.add_token
    rw [isSome_get_node_add_token]
    simp only [List.mem_cons, exists_eq_or_imp]
    tauto

/-- Every node reached by `get_node` in a well-formed tree is well-formed. -/
theorem inv_get_node :
    ∀ (t : List Char) (s n : IndexItem), s.inv → s.get_node t = some n → n.inv := by
  intro t
  induction t with
  | nil =>
    intro s n hs h
    rw [IndexItem.get_node_nil, Option.some.injEq] at h
    exact h ▸ hs
  | cons c rest ih =>
    intro s n hs h
    obtain ⟨docs, df, children⟩ := s
    rw [IndexItem.get_node_cons] at h
    cases h2 : lookupA (IndexItem.mk docs df children).children c with
    | none => rw [h2] at h; cases h
    | some child =>
      rw [h2] at h
      rw [IndexItem.inv_mk] at hs
      exact ih child n (invChildren_lookupA children c child hs.2.2.2 (by simpa using h2)) h

theorem InvertedIndex.add_token_nil_token (idx : InvertedIndex) (d : String) (f : Rat) :
    idx.add_token d [] f = idx := by
  obtain ⟨root⟩ := idx
  rfl

theorem InvertedIndex.remove_token_nil_token (idx : InvertedIndex) (d : String) :
    idx.remove_token d [] = idx := by
  obtain ⟨root⟩ := idx
  rfl

@[simp] theorem InvertedIndex.root_mk (r : IndexItem) :
    (InvertedIndex.mk r).root = r := rfl

/-! ## The claims -/

/-- C1: for every document reference `d`, non-empty token `t` and term
frequency `f`, immediately after `add_token d t f` on any index state,
`has_token t` returns `true` and `get_term_frequency d t` returns exactly
`f`. -/
theorem claim_C1_add_token_lookup (idx : InvertedIndex) (d : String)
    (t : List Char) (f : Rat) (h : t ≠ []) :
    (idx.add_token d t f).has_token t = true ∧
      (idx.add_token d t f).get_term_frequency d t = f := by
  unfold InvertedIndex.add_token InvertedIndex.has_token InvertedIndex.get_term_frequency
  rw [get_node_add_token_self d f t idx.root h]
  exact ⟨rfl, by simp [addTerm]⟩

/-- Witness for C1 at a concrete input. -/
theorem claim_C1_witness :
    (InvertedIndex.new.add_token "123" ['a'] 2).has_token ['a'] = true ∧
      (InvertedIndex.new.add_token "123" ['a'] 2).get_term_frequency "123" ['a'] = 2 :=
  claim_C1_add_token_lookup InvertedIndex.new "123" ['a'] 2 (by simp)

/-- C4: re-adding the same `(d, t)` pair with a second frequency `f2`
overwrites the stored term frequency, leaves `get_doc_frequency t`
unchanged, and does not create a duplicate posting (the postings list at `t`
keeps its length). -/
theorem claim_C4_overwrite (idx : InvertedIndex) (d : String) (t : List Char)
    (f1 f2 : Rat) (h : t ≠ []) :
    ((idx.add_token d t f1).add_token d t f2).get_term_frequency d t = f2 ∧
      ((idx.add_token d t f1).add_token d t f2).get_doc_frequency t =
        (idx.add_token d t f1).get_doc_frequency t ∧
      ∃ m1 m2, (idx.add_token d t f1).get_docs t = some m1 ∧
        ((idx.add_token d t f1).add_token d t f2).get_docs t = some m2 ∧
        m2.length = m1.length := by
  have h1 := get_node_add_token_self d f1 t idx.root h
  have h2 := get_node_add_token_self d f2 t (idx.root.add_token d t f1) h
  rw [h1, Option.getD_some] at h2
  unfold InvertedIndex.add_token InvertedIndex.get_term_frequency
    InvertedIndex.get_doc_frequency InvertedIndex.get_docs
  simp only [InvertedIndex.root_mk, h1, h2]
  refine ⟨?_, ?_, ?_⟩
  · simp [addTerm]
  · simp [addTerm, containsA_insertA_self]
  · refine ⟨_, _, rfl, rfl, ?_⟩
    simp only [addTerm, IndexItem.docs_mk, List.length_map]
    rw [length_insertA]
    simp [containsA_insertA_self]

/-- Witness for C4 at a concrete input. -/
theorem claim_C4_witness :
    ((InvertedIndex.new.add_token "456" ['f','o','o'] 1).add_token "456" ['f','o','o'] 100).get_term_frequency
        "456" ['f','o','o'] = 100 ∧
      ((InvertedIndex.new.add_token "456" ['f','o','o'] 1).add_token "456" ['f','o','o'] 100).get_doc_frequency
        ['f','o','o'] =
        (InvertedIndex.new.add_token "456" ['f','o','o'] 1).get_doc_frequency ['f','o','o'] ∧
      ∃ m1 m2, (InvertedIndex.new.add_token "456" ['f','o','o'] 1).get_docs ['f','o','o'] = some m1 ∧
        ((InvertedIndex.new.add_token "456" ['f','o','o'] 1).add_token "456" ['f','o','o'] 100).get_docs
          ['f','o','o'] = some m2 ∧
        m2.length = m1.length :=
  claim_C4_overwrite InvertedIndex.new "456" ['f','o','o'] 1 100 (by simp)

/-- C3: `remove_token d t` right after `add_token d t f` (non-empty `t`, on a
well-formed state) zeroes `get_term_frequency d t`, removes `d` from the
mapping `get_docs t`, decrements `get_doc_frequency t` by exactly one, and
leaves `has_token t` true (tombstone semantics). -/
theorem claim_C3_remove_after_add (idx : InvertedIndex) (d : String)
    (t : List Char) (f : Rat) (h : t ≠ []) (hw : idx.root.inv) :
    ((idx.add_token d t f).remove_token d t).get_term_frequency d t = 0 ∧
      (∃ m, ((idx.add_token d t f).remove_token d t).get_docs t = some m ∧
        lookupA m d = none) ∧
      ((idx.add_token d t f).remove_token d t).get_doc_frequency t =
        (idx.add_token d t f).get_doc_frequency t - 1 ∧
      ((idx.add_token d t f).remove_token d t).has_token t = true := by
  have h1 := get_node_add_token_self d f t idx.root h
  have h2 := get_node_remove_token_self d t (idx.root.add_token d t f) h
  rw [h1, Option.map_some'] at h2
  have hnodup : (keysA (((idx.root.get_node t).getD IndexItem.new).docs)).Nodup := by
    rcases h3 : idx.root.get_node t with _ | n
    · simp [h3, IndexItem.new, keysA]
    · have := inv_get_node t idx.root n hw h3
      obtain ⟨docs, df, children⟩ := n
      rw [IndexItem.inv_mk] at this
      simpa [h3] using this.1
  have hcontains : containsA (addTerm ((idx.root.get_node t).getD IndexItem.new) d f).docs d = true := by
    simp [addTerm, containsA_insertA_self]
  rw [removeTerm, if_pos hcontains] at h2
  unfold InvertedIndex.add_token InvertedIndex.remove_token
    InvertedIndex.get_term_frequency InvertedIndex.get_docs
    InvertedIndex.get_doc_frequency InvertedIndex.has_token
  simp only [InvertedIndex.root_mk, h1, h2]
  refine ⟨?_, ?_, ?_, ?_⟩
  · rw [IndexItem.docs_mk, addTerm, IndexItem.docs_mk,
      lookupA_eraseA_self _ _ (keysA_insertA _ _ _ hnodup)]
    rfl
  · refine ⟨_, rfl, ?_⟩
    rw [lookupA_map_snd, IndexItem.docs_mk, addTerm, IndexItem.docs_mk,
      lookupA_eraseA_self _ _ (keysA_insertA _ _ _ hnodup)]
    rfl
  · rfl
  · rfl

/-- Witness for C3 at a concrete input. -/
theorem claim_C3_witness :
    ((InvertedIndex.new.add_token "123" ['f','o','o'] 1).remove_token "123" ['f','o','o']).get_term_frequency
        "123" ['f','o','o'] = 0 ∧
      (∃ m, ((InvertedIndex.new.add_token "123" ['f','o','o'] 1).remove_token "123" ['f','o','o']).get_docs
        ['f','o','o'] = some m ∧ lookupA m "123" = none) ∧
      ((InvertedIndex.new.add_token "123" ['f','o','o'] 1).remove_token "123" ['f','o','o']).get_doc_frequency
        ['f','o','o'] =
        (InvertedIndex.new.add_token "123" ['f','o','o'] 1).get_doc_frequency ['f','o','o'] - 1 ∧
      ((InvertedIndex.new.add_token "123" ['f','o','o'] 1).remove_token "123" ['f','o','o']).has_token
        ['f','o','o'] = true :=
  claim_C3_remove_after_add InvertedIndex.new "123" ['f','o','o'] 1 (by simp)
    IndexItem.inv_new

/-- When the token's path is absent, or the terminal node does not hold the
document reference, `remove_token` returns the tree unchanged. -/
theorem remove_token_noop (d : String) :
    ∀ (t : List Char) (s : IndexItem),
      (∀ n, s.get_node t = some n → lookupA n.docs d = none) →
      s.remove_token d t = s := by
  intro t
  induction t with
  | nil => intro s _; rfl
  | cons c rest ih =>
    intro s hn
    obtain ⟨docs, df, children⟩ := s
    cases rest with
    | nil =>
      rw [IndexItem.remove_token_single]
      cases h2 : lookupA (IndexItem.mk docs df children).children c with
      | none => rfl
      | some child =>
        have hd : lookupA child.docs d = none := by
          apply hn
          rw [IndexItem.get_node_cons]
          simp only [h2]
          rfl
        have hterm : removeTerm child d = child := by
          rw [removeTerm]
          simp [containsA, hd]
        simp only [h2, IndexItem.docs_mk, IndexItem.doc_freq_mk, IndexItem.children_mk]
        rw [hterm, insertA_lookupA_eq _ _ _ (by simpa using h2)]
    | cons c2 rest2 =>
      rw [IndexItem.remove_token_cons₂]
      cases h2 : lookupA (IndexItem.mk docs df children).children c with
      | none => rfl
      | some child =>
        have hchild : child.remove_token d (c2 :: rest2) = child := by
          apply ih
          intro n hgn
          apply hn
          rw [IndexItem.get_node_cons, h2]
          exact hgn
        simp only [h2, IndexItem.docs_mk, IndexItem.doc_freq_mk, IndexItem.children_mk]
        rw [hchild, insertA_lookupA_eq _ _ _ (by simpa using h2)]

/-- C7: `remove_token d t` on a state where `d` was never indexed under `t`
(the path is missing, or the terminal node's postings lack `d`) leaves the
entire index unchanged and is a total no-op. -/
theorem claim_C7_remove_absent_noop (idx : InvertedIndex) (d : String)
    (t : List Char)
    (h : ∀ n, idx.root.get_node t = some n → lookupA n.docs d = none) :
    idx.remove_token d t = idx := by
  obtain ⟨root⟩ := idx
  unfold InvertedIndex.remove_token
  rw [remove_token_noop d t root (by simpa using h)]

/-- Witness for C7 at a concrete input: removing from a fresh index, where
the path `['f','o','o']` does not exist. -/
theorem claim_C7_witness :
    InvertedIndex.new.remove_token "123" ['f','o','o'] = InvertedIndex.new :=
  claim_C7_remove_absent_noop InvertedIndex.new "123" ['f','o','o']
    (fun _ hn => Option.noConfusion hn)

/-- C8: lookups signal "not found" distinctly from "found, but empty":
`get_docs` returns `none` exactly when the token path is absent (so a
tombstoned node yields `some` of an empty mapping, never `none`), while
`get_term_frequency` returns `0` and `get_doc_frequency` returns `0` when
the node does not exist. -/
theorem claim_C8_absent_sentinels (idx : InvertedIndex) (d : String)
    (t : List Char) :
    (idx.get_docs t = none ↔ idx.has_token t = false) ∧
      (idx.has_token t = false →
        idx.get_term_frequency d t = 0 ∧ idx.get_doc_frequency t = 0) ∧
      (idx.has_token t = true → ∃ m, idx.get_docs t = some m) := by
  unfold InvertedIndex.get_docs InvertedIndex.has_token
    InvertedIndex.get_term_frequency InvertedIndex.get_doc_frequency
  cases h : idx.root.get_node t <;> simp [h]

/-- Witness for C8 at concrete inputs: a fresh index (path absent), and an
index holding `"foo"` (path present). -/
theorem claim_C8_witness :
    InvertedIndex.new.get_docs ['f','o','o'] = none ∧
      InvertedIndex.new.get_term_frequency "123" ['f','o','o'] = 0 ∧
      InvertedIndex.new.get_doc_frequency ['f','o','o'] = 0 ∧
      ∃ m, (InvertedIndex.new.add_token "123" ['f','o','o'] 1).get_docs ['f','o','o'] = some m :=
  ⟨(claim_C8_absent_sentinels InvertedIndex.new "123" ['f','o','o']).1.mpr rfl,
    ((claim_C8_absent_sentinels InvertedIndex.new "123" ['f','o','o']).2.1 rfl).1,
    ((claim_C8_absent_sentinels InvertedIndex.new "123" ['f','o','o']).2.1 rfl).2,
    (claim_C8_absent_sentinels (InvertedIndex.new.add_token "123" ['f','o','o'] 1)
      "123" ['f','o','o']).2.2 rfl⟩

/-- C2: after any sequence of `add_token` / `remove_token` operations on a new
index, every node of the trie satisfies `IndexItem.inv`: its `doc_freq`
equals the number of keys of its postings map (hence is never negative), at
every node recursively. -/
theorem claim_C2_doc_freq_invariant (ops : List Op) :
    (InvertedIndex.new.applyOps ops).root.inv :=
  inv_applyOps ops InvertedIndex.new IndexItem.inv_new

/-- C9: in every reachable state the root's postings are empty and its
`doc_freq` is zero; an empty token is a no-op for insertion and removal; and
the empty-token lookups answer "found, but empty": `get_docs [] = some []`
and `get_doc_frequency [] = 0`. -/
theorem claim_C9_root_and_empty_token (ops : List Op) :
    (InvertedIndex.new.applyOps ops).root.docs = [] ∧
      (InvertedIndex.new.applyOps ops).root.doc_freq = 0 ∧
      (∀ d f, (InvertedIndex.new.applyOps ops).add_token d [] f =
        InvertedIndex.new.applyOps ops) ∧
      (∀ d, (InvertedIndex.new.applyOps ops).remove_token d [] =
        InvertedIndex.new.applyOps ops) ∧
      (InvertedIndex.new.applyOps ops).get_docs [] = some [] ∧
      (InvertedIndex.new.applyOps ops).get_doc_frequency [] = 0 := by
  have hroot := root_fields_applyOps ops InvertedIndex.new
  have hdocs : (InvertedIndex.new.applyOps ops).root.docs = [] := hroot.1
  have hdf : (InvertedIndex.new.applyOps ops).root.doc_freq = 0 := hroot.2
  refine ⟨hdocs, hdf, ?_, ?_, ?_, ?_⟩
  · intro d f
    exact InvertedIndex.add_token_nil_token _ d f
  · intro d
    exact InvertedIndex.remove_token_nil_token _ d
  · unfold InvertedIndex.get_docs
    rw [IndexItem.get_node_nil, Option.map_some', hdocs]
    rfl
  · unfold InvertedIndex.get_doc_frequency
    rw [IndexItem.get_node_nil]
    exact hdf

/-- C6, counterexample: the claim as stated fails for the empty sequence of
`add_token` calls and the empty string.  The empty string is then not a
prefix of any added token (there are none), yet `has_token ""` is `true`,
because the root node always exists. -/
theorem claim_C6_counterexample :
    ¬ ((¬ ∃ x ∈ ([] : List (String × List Char × Rat)), ∃ q,
          ([] : List Char) ++ q = x.2.1) →
        (InvertedIndex.new.applyAdds []).has_token [] = false) := by
  intro hclaim
  have h := hclaim (by simp)
  rw [InvertedIndex.applyAdds_nil] at h
  exact absurd h (by simp [InvertedIndex.has_token, InvertedIndex.new])

/-- C6 as amended: for a state built by a sequence of `add_token` calls,
`has_token p` is `true` exactly when `p` is the empty string (the root always
exists) or `p` is a codepoint prefix of some previously added token; for
every other string it is `false`. -/
theorem claim_C6_amended_prefix_lookup (adds : List (String × List Char × Rat))
    (p : List Char) :
    (InvertedIndex.new.applyAdds adds).has_token p = true ↔
      (p = [] ∨ ∃ x ∈ adds, ∃ q, p ++ q = x.2.1) := by
  rw [has_token_applyAdds]
  unfold InvertedIndex.has_token
  rw [show InvertedIndex.new.root = IndexItem.new from rfl, isSome_get_node_new]

/-- Flattening the mutual recursion of the serializer over the child list. -/
theorem serializeChildren_eq_map :
    ∀ (l : List (Char × IndexItem)),
      serializeChildren l = l.map (fun p => (p.1.toString, p.2.serialize)) := by
  intro l
  induction l with
  | nil => rfl
  | cons p rest ih =>
    obtain ⟨c, child⟩ := p
    rw [serializeChildren, ih]
    rfl

/-- C5, counterexample: serializing the `InvertedIndex` that holds only
`("123", "a", 2.0)` does not yield the root node's map directly; the derived
`Serialize` impl for the wrapper struct nests it under a `"root"` key. -/
theorem claim_C5_counterexample :
    (InvertedIndex.new.add_token "123" ['a'] 2).serialize ≠
      Json.obj [("df", Json.jint 0), ("docs", Json.obj []),
        ("a", Json.obj [("df", Json.jint 1),
          ("docs", Json.obj [("123", Json.obj [("tf", Json.jnum 2)])])])] := by
  intro hclaim
  have h : ("root", (InvertedIndex.new.add_token "123" ['a'] 2).root.serialize) =
      ("df", Json.jint 0) := by
    have h2 := hclaim
    unfold InvertedIndex.serialize at h2
    injection h2 with h3
    injection h3
  exact absurd (congrArg Prod.fst h) (by decide)

/-- C5 as amended: each node serializes to a map holding exactly `"df"`, then
`"docs"` (each posting as the one-field map `{"tf": tf}`), then one entry per
child keyed by the child's codepoint string, inlined as siblings; the
serialized `InvertedIndex` nests the root node's map under a single `"root"`
key, so the index of the example serializes to
`{"root": {"df": 0, "docs": {}, "a": {"df": 1, "docs": {"123": {"tf": 2.0}}}}}`. -/
theorem claim_C5_amended_serialize_layout :
    (∀ (docs : List (String × TermFrequency)) (df : Int)
        (children : List (Char × IndexItem)),
      (IndexItem.mk docs df children).serialize =
        Json.obj (("df", Json.jint df) ::
          ("docs", Json.obj (docs.map
            (fun p => (p.1, Json.obj [("tf", Json.jnum p.2.term_freq)])))) ::
          children.map (fun p => (p.1.toString, p.2.serialize)))) ∧
      (InvertedIndex.new.add_token "123" ['a'] 2).serialize =
        Json.obj [("root", Json.obj [("df", Json.jint 0), ("docs", Json.obj []),
          ("a", Json.obj [("df", Json.jint 1),
            ("docs", Json.obj [("123", Json.obj [("tf", Json.jnum 2)])])])])] := by
  constructor
  · intro docs df children
    rw [IndexItem.serialize, serializeChildren_eq_map]
  · rfl

theorem length_utf8EncodeChar (c : Char) :
    (utf8EncodeChar c).length = utf8Len c := by
  simp only [utf8EncodeChar, utf8Len]
  split_ifs <;> rfl

theorem utf8Len_pos (c : Char) : 0 < utf8Len c := by
  simp only [utf8Len]
  omega

theorem utf8DecodeFirst_encode (c : Char) (l : List Nat) :
    utf8DecodeFirst (utf8EncodeChar c ++ l) = some c := by
  have hofnat : Char.ofNat c.toNat = c := Char.ofNat_toNat c
  by_cases h1 : c.toNat < 0x80
  · rw [show utf8EncodeChar c = [c.toNat] by simp [utf8EncodeChar, h1]]
    rw [List.cons_append, List.nil_append, utf8DecodeFirst, if_pos h1, hofnat]
  · by_cases h2 : c.toNat < 0x800
    · rw [show utf8EncodeChar c = [0xC0 + c.toNat / 0x40, 0x80 + c.toNat % 0x40] by
        simp [utf8EncodeChar, h1, h2]]
      rw [List.cons_append, List.cons_append, List.nil_append, utf8DecodeFirst,
        if_neg (by omega), if_neg (by omega), if_pos (by omega), utf8Decode2,
        if_pos (by omega),
        show (0xC0 + c.toNat / 0x40 - 0xC0) * 0x40 + (0x80 + c.toNat % 0x40 - 0x80)
          = c.toNat by omega, hofnat]
    · by_cases h3 : c.toNat < 0x10000
      · rw [show utf8EncodeChar c = [0xE0 + c.toNat / 0x1000,
            0x80 + c.toNat / 0x40 % 0x40, 0x80 + c.toNat % 0x40] by
          simp [utf8EncodeChar, h1, h2, h3]]
        rw [List.cons_append, List.cons_append, List.cons_append, List.nil_append,
          utf8DecodeFirst, if_neg (by omega), if_neg (by omega), if_neg (by omega),
          if_pos (by omega), utf8Decode3, if_pos (by omega),
          show (0xE0 + c.toNat / 0x1000 - 0xE0) * 0x1000 +
            (0x80 + c.toNat / 0x40 % 0x40 - 0x80) * 0x40 +
            (0x80 + c.toNat % 0x40 - 0x80) = c.toNat by omega, hofnat]
      · rw [show utf8EncodeChar c = [0xF0 + c.toNat / 0x40000,
            0x80 + c.toNat / 0x1000 % 0x40, 0x80 + c.toNat / 0x40 % 0x40,
            0x80 + c.toNat % 0x40] by simp [utf8EncodeChar, h1, h2, h3]]
        rw [List.cons_append, List.cons_append, List.cons_append, List.cons_append,
          List.nil_append, utf8DecodeFirst, if_neg (by omega), if_neg (by omega),
          if_neg (by omega), if_neg (by omega), utf8Decode4, if_pos (by omega),
          show (0xF0 + c.toNat / 0x40000 - 0xF0) * 0x40000 +
            (0x80 + c.toNat / 0x1000 % 0x40 - 0x80) * 0x1000 +
            (0x80 + c.toNat / 0x40 % 0x40 - 0x80) * 0x40 +
            (0x80 + c.toNat % 0x40 - 0x80) = c.toNat by omega, hofnat]

theorem utf8EncodeChar_head (c : Char) :
    ∃ b bs, utf8EncodeChar c = b :: bs ∧ (b < 0x80 ∨ 0xC0 ≤ b) := by
  by_cases h1 : c.toNat < 0x80
  · exact ⟨c.toNat, [], by simp [utf8EncodeChar, h1], Or.inl h1⟩
  · by_cases h2 : c.toNat < 0x800
    · exact ⟨0xC0 + c.toNat / 0x40, [0x80 + c.toNat % 0x40],
        by simp [utf8EncodeChar, h1, h2], Or.inr (by omega)⟩
    · by_cases h3 : c.toNat < 0x10000
      · exact ⟨0xE0 + c.toNat / 0x1000,
          [0x80 + c.toNat / 0x40 % 0x40, 0x80 + c.toNat % 0x40],
          by simp [utf8EncodeChar, h1, h2, h3], Or.inr (by omega)⟩
      · exact ⟨0xF0 + c.toNat / 0x40000,
          [0x80 + c.toNat / 0x1000 % 0x40, 0x80 + c.toNat / 0x40 % 0x40,
            0x80 + c.toNat % 0x40],
          by simp [utf8EncodeChar, h1, h2, h3], Or.inr (by omega)⟩

theorem is_char_boundary_encode (c : Char) (t : List Char) :
    is_char_boundary (utf8EncodeChar c ++ utf8Encode t) (utf8Len c) = true := by
  have hlen := length_utf8EncodeChar c
  have hpos := utf8Len_pos c
  rw [is_char_boundary, if_neg (by omega), ← hlen,
    List.getElem?_append_right (le_refl _), Nat.sub_self]
  cases t with
  | nil =>
    simp [utf8Encode, hlen]
  | cons c2 t2 =>
    obtain ⟨b, bs, hb, hrange⟩ := utf8EncodeChar_head c2
    rw [utf8Encode, hb, List.cons_append, List.getElem?_cons_zero]
    rcases hrange with h | h <;> simp [h]

theorem drop_utf8Len_encode (c : Char) (l : List Nat) :
    (utf8EncodeChar c ++ l).drop (utf8Len c) = l := by
  rw [← length_utf8EncodeChar, List.drop_left]

theorem utf8Encode_cons_length_pos (c : Char) (t : List Char) :
    0 < (utf8Encode (c :: t)).length := by
  rw [utf8Encode, List.length_append, length_utf8EncodeChar]
  have := utf8Len_pos c
  omega

/-- On the UTF-8 bytes of any token the byte-level insertion walk hits no
panic and agrees with the codepoint-level walk. -/
theorem add_token_b_correct (d : String) (f : Rat) :
    ∀ (t : List Char) (s : IndexItem),
      s.add_token_b d (utf8Encode t) f = some (s.add_token d t f) := by
  intro t
  induction t with
  | nil =>
    intro s
    rw [IndexItem.add_token_b]
    simp [utf8Encode, utf8DecodeFirst]
  | cons c t2 ih =>
    intro s
    rw [IndexItem.add_token_b]
    rw [show utf8Encode (c :: t2) = utf8EncodeChar c ++ utf8Encode t2 from rfl]
    simp only [utf8DecodeFirst_encode]
    cases t2 with
    | nil =>
      rw [dif_neg (by simp [utf8Encode, length_utf8EncodeChar])]
      rw [IndexItem.add_token_single, addTerm]
    | cons c2 t3 =>
      rw [dif_pos (by
        rw [List.length_append, length_utf8EncodeChar]
        have := utf8Encode_cons_length_pos c2 t3
        omega)]
      rw [if_pos (is_char_boundary_encode c (c2 :: t3))]
      rw [drop_utf8Len_encode, ih]
      rw [IndexItem.add_token_cons₂]

/-- On the UTF-8 bytes of any token the byte-level removal walk hits no
panic and agrees with the codepoint-level walk. -/
theorem remove_token_b_correct (d : String) :
    ∀ (t : List Char) (s : IndexItem),
      s.remove_token_b d (utf8Encode t) = some (s.remove_token d t) := by
  intro t
  induction t with
  | nil =>
    intro s
    rw [IndexItem.remove_token_b]
    simp [utf8Encode, utf8DecodeFirst]
  | cons c t2 ih =>
    intro s
    rw [IndexItem.remove_token_b]
    rw [show utf8Encode (c :: t2) = utf8EncodeChar c ++ utf8Encode t2 from rfl]
    simp only [utf8DecodeFirst_encode]
    cases h2 : lookupA s.children c with
    | none =>
      cases t2 with
      | nil =>
        rw [IndexItem.remove_token_single]
        simp only [h2]
      | cons c2 t3 =>
        rw [IndexItem.remove_token_cons₂]
        simp only [h2]
    | some child =>
      cases t2 with
      | nil =>
        rw [IndexItem.remove_token_single]
        simp only [h2]
        rw [dif_neg (by simp [utf8Encode, length_utf8EncodeChar])]
        rw [removeTerm]
      | cons c2 t3 =>
        rw [IndexItem.remove_token_cons₂]
        simp only [h2]
        rw [dif_pos (by
          rw [List.length_append, length_utf8EncodeChar]
          have := utf8Encode_cons_length_pos c2 t3
          omega)]
        rw [if_pos (is_char_boundary_encode c (c2 :: t3))]
        rw [drop_utf8Len_encode, ih]

/-- C10: the mutating walks are total on valid UTF-8 input and never panic:
on the UTF-8 bytes of any token, the byte-level models of `add_token` and
`remove_token` — in which a slice off a character boundary or a malformed
stream would surface as `none` — return `some` and compute exactly what the
codepoint-level walk computes, so the `&token[index..]` slice always lands
on a character boundary and multi-byte characters are traversed as single
codepoint edges.  (The read-only operations iterate `token.chars()` with no
slicing and are total by construction.) -/
theorem claim_C10_no_panic_utf8 (s : IndexItem) (d : String) (t : List Char)
    (f : Rat) :
    s.add_token_b d (utf8Encode t) f = some (s.add_token d t f) ∧
      s.remove_token_b d (utf8Encode t) = some (s.remove_token d t) :=
  ⟨add_token_b_correct d f t s, remove_token_b_correct d t s⟩

end ElasticLunr
